import Mathlib

/-!
Verification of the expense-ledger core of `app_gastos.py`.

Shallow embedding conventions:
* an expense record (`gastos` table row) is `Gasto`; monetary amounts are `ℚ`
  (SQLite REAL, used here only through `+`, `/` and comparisons);
* calendar dates are day numbers `Nat` (ISO dates are order-isomorphic to day
  numbers, and the code only compares, sorts and day-buckets them);
* the ledger is the list of rows in insertion (rowid) order, oldest first;
* UI message emission is modelled as a `Bool` flag in the result.
-/

/-- Python's `str.strip()`: drop leading and trailing whitespace.  This is
an executable embedding over the character list (Lean's own `String.trim`
is defined by well-founded recursion and does not reduce in the kernel). -/
def strip (s : String) : String :=
  ⟨(((s.data.dropWhile Char.isWhitespace).reverse).dropWhile Char.isWhitespace).reverse⟩

/-- A row of the `gastos` table. -/
structure Gasto where
  id : Nat
  categoria : String
  concepto : String
  banco : String
  monto_usd : ℚ
  fecha : Nat
deriving DecidableEq

/-- The two currencies offered by the `moneda` selectbox:
`"USD $"` and `"Bolívares Bs."`. -/
inductive Moneda where
  | usd
  | bolivares
deriving DecidableEq

/-- The save-button handler (`if st.button("Guardar Gasto")` block):
validates the fields, converts the entered amount to USD
(`monto_final_usd`), and on `valid_input` persists via `guardar_gasto`,
which stores `categoria_final.strip()` and the other fields as given.
Returns `some` of the row inserted, `none` when validation failed and
nothing was persisted.  `freshId` stands for the AUTOINCREMENT id. -/
def guardarHandler (categoria_final concepto banco : String)
    (monto_ingresado : ℚ) (moneda : Moneda) (tasa_cambio : ℚ)
    (fecha freshId : Nat) : Option Gasto :=
  if categoria_final = "" ∨ concepto = "" ∨ banco = "" ∨ monto_ingresado ≤ 0 then
    none
  else if moneda = Moneda.bolivares then
    if tasa_cambio ≤ 0 then
      none
    else
      some ⟨freshId, strip categoria_final, concepto, banco,
            monto_ingresado / tasa_cambio, fecha⟩
  else
    some ⟨freshId, strip categoria_final, concepto, banco, monto_ingresado, fecha⟩

/-- C1: currency normalization contract of the save handler.  With the three
text fields non-empty (their validation is a separate concern): a positive
amount in USD is stored unchanged with the rate ignored; a positive amount in
Bolivares with a positive rate is stored as `amount / rate`; and the handler
rejects (persisting nothing) exactly when the amount is non-positive, or the
currency is Bolivares and the rate is non-positive. -/
theorem C1_normalization (c d b : String) (m r : ℚ) (f k : Nat)
    (hc : c ≠ "") (hd : d ≠ "") (hb : b ≠ "") :
    (0 < m →
      (guardarHandler c d b m Moneda.usd r f k).map Gasto.monto_usd = some m) ∧
    (0 < m → 0 < r →
      (guardarHandler c d b m Moneda.bolivares r f k).map Gasto.monto_usd
        = some (m / r)) ∧
    (guardarHandler c d b m Moneda.usd r f k = none ↔ m ≤ 0) ∧
    (guardarHandler c d b m Moneda.bolivares r f k = none ↔ m ≤ 0 ∨ r ≤ 0) := by
  constructor
  · intro hm
    simp [guardarHandler, hc, hd, hb, not_le.mpr hm]
  constructor
  · intro hm hr
    simp [guardarHandler, hc, hd, hb, not_le.mpr hm, not_le.mpr hr]
  constructor
  · constructor
    · intro h
      by_contra hm
      simp [guardarHandler, hc, hd, hb, hm] at h
    · intro hm
      simp [guardarHandler, hc, hd, hb, hm]
  · constructor
    · intro h
      by_contra hmr
      push_neg at hmr
      simp [guardarHandler, hc, hd, hb, not_le.mpr hmr.1, not_le.mpr hmr.2] at h
    · intro hmr
      rcases hmr with hm | hr
      · simp [guardarHandler, hc, hd, hb, hm]
      · by_cases hm : m ≤ 0
        · simp [guardarHandler, hc, hd, hb, hm]
        · simp [guardarHandler, hc, hd, hb, hm, hr]

/-- Witness for C1 at concrete inputs (the spec scenario
`normalize(1000, foreign, 50) == 20`). -/
theorem C1_normalization_witness :
    (guardarHandler "Hogar" "luz" "Banco A" 1000 Moneda.bolivares 50 3 1).map
      Gasto.monto_usd = some 20 := by
  have h := (C1_normalization "Hogar" "luz" "Banco A" 1000 50 3 1
    (by decide) (by decide) (by decide)).2.1 (by norm_num) (by norm_num)
  rw [h]
  norm_num

/-- One step of the stable descending insertion used to model the query
`SELECT ... FROM gastos ORDER BY fecha DESC`: SQLite scans the table in
rowid (insertion) order and its in-memory merge sorter is stable, so rows
with equal `fecha` come out in insertion order, oldest first. -/
def insertFechaDesc (g : Gasto) : List Gasto → List Gasto
  | [] => [g]
  | h :: t => if g.fecha < h.fecha then h :: insertFechaDesc g t else g :: h :: t

/-- Stable sort of the ledger by `fecha` descending (model of the
`ORDER BY fecha DESC` result over the insertion-ordered table). -/
def sortFechaDesc : List Gasto → List Gasto
  | [] => []
  | g :: t => insertFechaDesc g (sortFechaDesc t)

/-- `cargar_datos`: reads all rows ordered by `fecha` descending; on any
storage exception it reports the error (second component `true`) and
returns the empty frame with the standard column set instead of raising.
`fallaCarga` injects the storage failure of the `except` branch. -/
def cargar_datos (fallaCarga : Bool) (db : List Gasto) : List Gasto × Bool :=
  if fallaCarga then ([], true) else (sortFechaDesc db, false)

theorem insertFechaDesc_perm (g : Gasto) (l : List Gasto) :
    (insertFechaDesc g l).Perm (g :: l) := by
  induction l with
  | nil => simp [insertFechaDesc]
  | cons h t ih =>
    by_cases hlt : g.fecha < h.fecha
    · simp only [insertFechaDesc, if_pos hlt]
      exact (ih.cons h).trans (List.Perm.swap g h t)
    · simp [insertFechaDesc, hlt]

theorem insertFechaDesc_pairwise (g : Gasto) (l : List Gasto)
    (hl : l.Pairwise (fun a b => b.fecha ≤ a.fecha)) :
    (insertFechaDesc g l).Pairwise (fun a b => b.fecha ≤ a.fecha) := by
  induction l with
  | nil => simp [insertFechaDesc]
  | cons h t ih =>
    rw [List.pairwise_cons] at hl
    by_cases hlt : g.fecha < h.fecha
    · simp only [insertFechaDesc, if_pos hlt]
      rw [List.pairwise_cons]
      refine ⟨?_, ih hl.2⟩
      intro x hx
      rcases List.mem_cons.mp ((insertFechaDesc_perm g t).mem_iff.mp hx) with hx | hx
      · subst hx; exact le_of_lt hlt
      · exact hl.1 x hx
    · simp only [insertFechaDesc, if_neg hlt]
      rw [List.pairwise_cons]
      refine ⟨?_, List.pairwise_cons.mpr hl⟩
      intro x hx
      rcases List.mem_cons.mp hx with hx | hx
      · subst hx; exact not_lt.mp hlt
      · exact le_trans (hl.1 x hx) (not_lt.mp hlt)

theorem insertFechaDesc_filter (g : Gasto) (l : List Gasto) (d : Nat) :
    (insertFechaDesc g l).filter (fun x => decide (x.fecha = d))
      = ((g :: l).filter (fun x => decide (x.fecha = d))) := by
  induction l with
  | nil => rfl
  | cons h t ih =>
    by_cases hlt : g.fecha < h.fecha
    · simp only [insertFechaDesc, if_pos hlt]
      by_cases hh : h.fecha = d
      · by_cases hg : g.fecha = d
        · exfalso; omega
        · simp [List.filter_cons, hh, hg, ih]
      · by_cases hg : g.fecha = d
        · simp [List.filter_cons, hh, hg, ih]
        · simp [List.filter_cons, hh, hg, ih]
    · simp only [insertFechaDesc, if_neg hlt]

theorem sortFechaDesc_pairwise (db : List Gasto) :
    (sortFechaDesc db).Pairwise (fun a b => b.fecha ≤ a.fecha) := by
  induction db with
  | nil => simp [sortFechaDesc]
  | cons g t ih => exact insertFechaDesc_pairwise g (sortFechaDesc t) ih

theorem sortFechaDesc_perm (db : List Gasto) : (sortFechaDesc db).Perm db := by
  induction db with
  | nil => simp [sortFechaDesc]
  | cons g t ih => exact (insertFechaDesc_perm g (sortFechaDesc t)).trans (ih.cons g)

theorem sortFechaDesc_filter (db : List Gasto) (d : Nat) :
    (sortFechaDesc db).filter (fun x => decide (x.fecha = d))
      = db.filter (fun x => decide (x.fecha = d)) := by
  induction db with
  | nil => rfl
  | cons g t ih =>
    calc (sortFechaDesc (g :: t)).filter (fun x => decide (x.fecha = d))
        = ((g :: sortFechaDesc t).filter (fun x => decide (x.fecha = d))) :=
          insertFechaDesc_filter g (sortFechaDesc t) d
      _ = (g :: t).filter (fun x => decide (x.fecha = d)) := by
          simp [List.filter_cons, ih]

/-- C2 counterexample: two rows inserted on the same date come back from
`cargar_datos` in insertion order, oldest first — not most-recent-first as
the claim predicts. -/
theorem C2_counterexample :
    (cargar_datos false
        [⟨1, "A", "x", "b", 1, 5⟩, ⟨2, "A", "y", "b", 1, 5⟩]).1
      ≠ [⟨2, "A", "y", "b", 1, 5⟩, ⟨1, "A", "x", "b", 1, 5⟩] := by
  decide

/-- C2 (amended): `cargar_datos` returns the records ordered by `fecha`
descending; rows with equal dates keep their insertion order (oldest
first — the sort is stable over the rowid scan); the result is a
permutation of the ledger, and an empty ledger yields the empty sequence
without an error. -/
theorem C2_list_all_amended (db : List Gasto) :
    ((cargar_datos false db).1).Pairwise (fun a b => b.fecha ≤ a.fecha) ∧
    (∀ d : Nat, ((cargar_datos false db).1).filter (fun g => decide (g.fecha = d))
        = db.filter (fun g => decide (g.fecha = d))) ∧
    ((cargar_datos false db).1).Perm db ∧
    cargar_datos false [] = ([], false) := by
  refine ⟨?_, ?_, ?_, rfl⟩
  · simpa [cargar_datos] using sortFechaDesc_pairwise db
  · intro d
    simpa [cargar_datos] using sortFechaDesc_filter db d
  · simpa [cargar_datos] using sortFechaDesc_perm db

theorem zip_map_left_self {α β : Type} (f : α → β) (l : List α) :
    (l.map f).zip l = l.map (fun x => (f x, x)) := by
  induction l with
  | nil => rfl
  | cons x t ih => simp [ih]

/-- `actualizar_nombre_categoria`: if the new name is empty after
stripping, shows an error and leaves the store untouched (second component
`true` records that warning path); otherwise runs
`UPDATE gastos SET categoria = new.strip() WHERE categoria = old`. -/
def actualizar_nombre_categoria (db : List Gasto) (old_name new_name : String) :
    List Gasto × Bool :=
  if strip new_name = "" then (db, true)
  else
    (db.map (fun g =>
        if g.categoria = old_name then { g with categoria := strip new_name } else g),
     false)

/-- C3 counterexample: renaming `"A"` to `" B "` stores the stripped name
`"B"`, not the supplied `" B "`, on the matching record. -/
theorem C3_counterexample :
    (actualizar_nombre_categoria [⟨1, "A", "x", "b", 1, 0⟩] "A" " B ").1
        = [⟨1, "B", "x", "b", 1, 0⟩] ∧
    ("B" : String) ≠ " B " := by
  constructor
  · decide
  · decide

/-- C3 (amended): with `new` empty after stripping, the ledger is
unchanged and the warning path is taken; otherwise no warning is shown,
the ledger keeps its length, every record whose `categoria` equals `old`
gets the stripped `new` as its category with all other fields (including
`id`) unchanged, and every non-matching record is unchanged. -/
theorem C3_rename_amended (db : List Gasto) (old_name new_name : String) :
    (strip new_name = "" →
      actualizar_nombre_categoria db old_name new_name = (db, true)) ∧
    (strip new_name ≠ "" →
      (actualizar_nombre_categoria db old_name new_name).2 = false ∧
      (actualizar_nombre_categoria db old_name new_name).1.length = db.length ∧
      ∀ p ∈ ((actualizar_nombre_categoria db old_name new_name).1).zip db,
        (p.2.categoria = old_name → p.1 = { p.2 with categoria := strip new_name }) ∧
        (p.2.categoria ≠ old_name → p.1 = p.2)) := by
  constructor
  · intro h
    simp [actualizar_nombre_categoria, h]
  · intro h
    refine ⟨by simp [actualizar_nombre_categoria, h],
            by simp [actualizar_nombre_categoria, h], ?_⟩
    intro p hp
    simp only [actualizar_nombre_categoria, if_neg h] at hp
    rw [zip_map_left_self] at hp
    rcases List.mem_map.mp hp with ⟨g, _, hg⟩
    subst hg
    by_cases hcat : g.categoria = old_name
    · refine ⟨fun _ => ?_, fun hne => absurd hcat hne⟩
      simp [hcat]
    · refine ⟨fun he => absurd he hcat, fun _ => ?_⟩
      simp [hcat]

/-- Witness for C3 (both branches) at concrete inputs. -/
theorem C3_rename_amended_witness :
    actualizar_nombre_categoria [⟨1, "A", "x", "b", 1, 0⟩] "A" "  "
        = ([⟨1, "A", "x", "b", 1, 0⟩], true) ∧
    (actualizar_nombre_categoria [⟨1, "A", "x", "b", 1, 0⟩] "A" "B").2 = false := by
  have h1 := (C3_rename_amended [⟨1, "A", "x", "b", 1, 0⟩] "A" "  ").1 (by decide)
  have h2 := ((C3_rename_amended [⟨1, "A", "x", "b", 1, 0⟩] "A" "B").2 (by decide)).1
  exact ⟨h1, h2⟩

/-- `eliminar_gasto`: runs `DELETE FROM gastos WHERE id = ?`; the second
component is `true` when `conn.total_changes` is non-zero (success message)
and `false` when nothing matched (the "not found" warning). -/
def eliminar_gasto (db : List Gasto) (gasto_id : Nat) : List Gasto × Bool :=
  (db.filter (fun g => decide (g.id ≠ gasto_id)),
   decide ((db.filter (fun g => decide (g.id ≠ gasto_id))).length < db.length))

theorem filter_ne_id_eq_erase (db : List Gasto) (g : Gasto)
    (hids : (db.map Gasto.id).Nodup) (hg : g ∈ db) :
    db.filter (fun x => decide (x.id ≠ g.id)) = db.erase g := by
  induction db with
  | nil => simp at hg
  | cons h t ih =>
    simp only [List.map_cons, List.nodup_cons] at hids
    rcases List.mem_cons.mp hg with hg | hg
    · subst hg
      have hall : ∀ x ∈ t, x.id ≠ g.id := by
        intro x hx heq
        exact hids.1 (heq ▸ List.mem_map_of_mem Gasto.id hx)
      have hfil : t.filter (fun x => decide (x.id ≠ g.id)) = t :=
        List.filter_eq_self.mpr (fun x hx => by simp [hall x hx])
      simp only [ne_eq, decide_not] at hfil
      rw [List.erase_cons_head, List.filter_cons]
      simp [hfil]
    · have hhg : h ≠ g := by
        intro he
        subst he
        exact hids.1 (List.mem_map_of_mem Gasto.id hg)
      have hid : h.id ≠ g.id := by
        intro he
        exact hids.1 (he ▸ List.mem_map_of_mem Gasto.id hg)
      have ih' := ih hids.2 hg
      simp only [ne_eq, decide_not] at ih'
      rw [List.erase_cons_tail (by simpa using hhg), List.filter_cons]
      simp [hid, ih']

/-- C4: deleting an id not present leaves the ledger unchanged and reports
"not found"; deleting an existing id (ids are unique — `id` is the table's
primary key) removes exactly that record, leaves every other record
unchanged, and reports a deletion. -/
theorem C4_delete (db : List Gasto) (gid : Nat)
    (hids : (db.map Gasto.id).Nodup) :
    ((∀ g ∈ db, g.id ≠ gid) → eliminar_gasto db gid = (db, false)) ∧
    (∀ g ∈ db, g.id = gid →
      (eliminar_gasto db gid).1 = db.erase g ∧ (eliminar_gasto db gid).2 = true) := by
  constructor
  · intro hnone
    have hfil : db.filter (fun g => decide (g.id ≠ gid)) = db :=
      List.filter_eq_self.mpr (fun x hx => by simp [hnone x hx])
    show (db.filter (fun g => decide (g.id ≠ gid)),
          decide ((db.filter (fun g => decide (g.id ≠ gid))).length < db.length))
        = (db, false)
    rw [hfil]
    simp
  · intro g hg hgid
    subst hgid
    have hfil := filter_ne_id_eq_erase db g hids hg
    have hlen : (db.erase g).length < db.length := by
      rw [List.length_erase_of_mem hg]
      have hpos : 0 < db.length := List.length_pos.mpr (List.ne_nil_of_mem hg)
      omega
    constructor
    · show db.filter (fun x => decide (x.id ≠ g.id)) = db.erase g
      exact hfil
    · show decide ((db.filter (fun x => decide (x.id ≠ g.id))).length < db.length) = true
      rw [hfil]
      exact decide_eq_true hlen

/-- Witness for C4 at a concrete two-record ledger: a missing id is a
no-op reported "not found", an existing id is removed and reported. -/
theorem C4_delete_witness :
    eliminar_gasto [⟨1, "A", "x", "b", 1, 0⟩, ⟨2, "A", "y", "b", 2, 0⟩] 5
        = ([⟨1, "A", "x", "b", 1, 0⟩, ⟨2, "A", "y", "b", 2, 0⟩], false) ∧
    (eliminar_gasto [⟨1, "A", "x", "b", 1, 0⟩, ⟨2, "A", "y", "b", 2, 0⟩] 2).1
        = [⟨1, "A", "x", "b", 1, 0⟩] ∧
    (eliminar_gasto [⟨1, "A", "x", "b", 1, 0⟩, ⟨2, "A", "y", "b", 2, 0⟩] 2).2 = true := by
  have h1 := (C4_delete [⟨1, "A", "x", "b", 1, 0⟩, ⟨2, "A", "y", "b", 2, 0⟩] 5
    (by decide)).1 (by decide)
  have h2 := (C4_delete [⟨1, "A", "x", "b", 1, 0⟩, ⟨2, "A", "y", "b", 2, 0⟩] 2
    (by decide)).2 ⟨2, "A", "y", "b", 2, 0⟩ (by decide) rfl
  refine ⟨h1, ?_, h2.2⟩
  rw [h2.1]
  decide

/-- Sum of `monto_usd` over the records dated `d`: one bucket of the
`resample('D')['monto_usd'].sum()` aggregation (the sum of an empty bucket
is 0). -/
def sumDia (db : List Gasto) (d : Nat) : ℚ :=
  ((db.filter (fun g => decide (g.fecha = d))).map Gasto.monto_usd).sum

/-- Earliest `fecha` in the ledger (start of the resample range). -/
def fechaMin : List Gasto → Nat
  | [] => 0
  | g :: t => t.foldr (fun x m => min x.fecha m) g.fecha

/-- Latest `fecha` in the ledger (end of the resample range). -/
def fechaMax : List Gasto → Nat
  | [] => 0
  | g :: t => t.foldr (fun x m => max x.fecha m) g.fecha

/-- `gastos_tiempo`:
`df.set_index('fecha').resample('D')['monto_usd'].sum()` — one bucket per
calendar day from the earliest to the latest record date inclusive, in
ascending order; a day with no records gets sum 0; empty input stays
empty. -/
def gastos_tiempo (db : List Gasto) : List (Nat × ℚ) :=
  if db.isEmpty then []
  else (List.range (fechaMax db - fechaMin db + 1)).map
    (fun i => (fechaMin db + i, sumDia db (fechaMin db + i)))

theorem foldr_min_le (l : List Gasto) (a : Nat) :
    l.foldr (fun x m => min x.fecha m) a ≤ a ∧
    ∀ x ∈ l, l.foldr (fun x m => min x.fecha m) a ≤ x.fecha := by
  induction l with
  | nil => exact ⟨le_refl a, by simp⟩
  | cons h t ih =>
    simp only [List.foldr_cons]
    refine ⟨le_trans (min_le_right _ _) ih.1, ?_⟩
    intro x hx
    rcases List.mem_cons.mp hx with hx | hx
    · subst hx; exact min_le_left _ _
    · exact le_trans (min_le_right _ _) (ih.2 x hx)

theorem foldr_min_attained (l : List Gasto) (a : Nat) :
    l.foldr (fun x m => min x.fecha m) a = a ∨
    ∃ x ∈ l, l.foldr (fun x m => min x.fecha m) a = x.fecha := by
  induction l with
  | nil => exact Or.inl rfl
  | cons h t ih =>
    simp only [List.foldr_cons]
    rcases le_total h.fecha (t.foldr (fun x m => min x.fecha m) a) with hle | hle
    · exact Or.inr ⟨h, List.mem_cons_self h t, min_eq_left hle⟩
    · rw [min_eq_right hle]
      rcases ih with ih | ⟨x, hx, he⟩
      · exact Or.inl ih
      · exact Or.inr ⟨x, List.mem_cons_of_mem h hx, he⟩

theorem foldr_max_ge (l : List Gasto) (a : Nat) :
    a ≤ l.foldr (fun x m => max x.fecha m) a ∧
    ∀ x ∈ l, x.fecha ≤ l.foldr (fun x m => max x.fecha m) a := by
  induction l with
  | nil => exact ⟨le_refl a, by simp⟩
  | cons h t ih =>
    simp only [List.foldr_cons]
    refine ⟨le_trans ih.1 (le_max_right _ _), ?_⟩
    intro x hx
    rcases List.mem_cons.mp hx with hx | hx
    · subst hx; exact le_max_left _ _
    · exact le_trans (ih.2 x hx) (le_max_right _ _)

theorem foldr_max_attained (l : List Gasto) (a : Nat) :
    l.foldr (fun x m => max x.fecha m) a = a ∨
    ∃ x ∈ l, l.foldr (fun x m => max x.fecha m) a = x.fecha := by
  induction l with
  | nil => exact Or.inl rfl
  | cons h t ih =>
    simp only [List.foldr_cons]
    rcases le_total (t.foldr (fun x m => max x.fecha m) a) h.fecha with hle | hle
    · exact Or.inr ⟨h, List.mem_cons_self h t, max_eq_left hle⟩
    · rw [max_eq_right hle]
      rcases ih with ih | ⟨x, hx, he⟩
      · exact Or.inl ih
      · exact Or.inr ⟨x, List.mem_cons_of_mem h hx, he⟩

theorem fechaMin_le (db : List Gasto) (g : Gasto) (hg : g ∈ db) :
    fechaMin db ≤ g.fecha := by
  cases db with
  | nil => simp at hg
  | cons h t =>
    rcases List.mem_cons.mp hg with hg | hg
    · subst hg; exact (foldr_min_le t g.fecha).1
    · exact (foldr_min_le t h.fecha).2 g hg

theorem le_fechaMax (db : List Gasto) (g : Gasto) (hg : g ∈ db) :
    g.fecha ≤ fechaMax db := by
  cases db with
  | nil => simp at hg
  | cons h t =>
    rcases List.mem_cons.mp hg with hg | hg
    · subst hg; exact (foldr_max_ge t g.fecha).1
    · exact (foldr_max_ge t h.fecha).2 g hg

theorem fechaMin_attained (db : List Gasto) (h : db ≠ []) :
    ∃ g ∈ db, g.fecha = fechaMin db := by
  cases db with
  | nil => exact absurd rfl h
  | cons g0 t =>
    rcases foldr_min_attained t g0.fecha with he | ⟨x, hx, he⟩
    · refine ⟨g0, List.mem_cons_self g0 t, ?_⟩
      show g0.fecha = t.foldr (fun x m => min x.fecha m) g0.fecha
      exact he.symm
    · refine ⟨x, List.mem_cons_of_mem g0 hx, ?_⟩
      show x.fecha = t.foldr (fun x m => min x.fecha m) g0.fecha
      exact he.symm

theorem fechaMax_attained (db : List Gasto) (h : db ≠ []) :
    ∃ g ∈ db, g.fecha = fechaMax db := by
  cases db with
  | nil => exact absurd rfl h
  | cons g0 t =>
    rcases foldr_max_attained t g0.fecha with he | ⟨x, hx, he⟩
    · refine ⟨g0, List.mem_cons_self g0 t, ?_⟩
      show g0.fecha = t.foldr (fun x m => max x.fecha m) g0.fecha
      exact he.symm
    · refine ⟨x, List.mem_cons_of_mem g0 hx, ?_⟩
      show x.fecha = t.foldr (fun x m => max x.fecha m) g0.fecha
      exact he.symm

/-- C5: for a non-empty ledger, `gastos_tiempo` has exactly one entry per
calendar day from the earliest to the latest record date inclusive (the
bounds are attained record dates and bound every record), the entry for
day `min + i` sits at index `i` (so the sequence is ascending by date),
each value is the sum of `monto_usd` over that day with 0 for a day no
record carries, and the spec scenario (amounts 10, 20, 5 on days 1, 1, 3)
yields `[(1, 30), (2, 0), (3, 5)]`. -/
theorem C5_daily_series (db : List Gasto) (h : db ≠ []) :
    (gastos_tiempo db).length = fechaMax db - fechaMin db + 1 ∧
    (∀ i (hi : i < (gastos_tiempo db).length),
      (gastos_tiempo db).get ⟨i, hi⟩ = (fechaMin db + i, sumDia db (fechaMin db + i))) ∧
    (∀ g ∈ db, fechaMin db ≤ g.fecha ∧ g.fecha ≤ fechaMax db) ∧
    (∃ g ∈ db, g.fecha = fechaMin db) ∧
    (∃ g ∈ db, g.fecha = fechaMax db) ∧
    (∀ d : Nat, (∀ g ∈ db, g.fecha ≠ d) → sumDia db d = 0) ∧
    gastos_tiempo
        [⟨1, "a", "x", "p", 10, 1⟩, ⟨2, "a", "x", "p", 20, 1⟩, ⟨3, "a", "x", "p", 5, 3⟩]
      = [(1, 30), (2, 0), (3, 5)] := by
  have hne : db.isEmpty = false := by
    cases db with
    | nil => exact absurd rfl h
    | cons g t => rfl
  refine ⟨?_, ?_, ?_, fechaMin_attained db h, fechaMax_attained db h, ?_, ?_⟩
  · simp [gastos_tiempo, hne]
  · intro i hi
    simp [gastos_tiempo, hne]
  · intro g hg
    exact ⟨fechaMin_le db g hg, le_fechaMax db g hg⟩
  · intro d hd
    have hfil : db.filter (fun g => decide (g.fecha = d)) = [] := by
      rw [List.filter_eq_nil_iff]
      intro g hg
      simp [hd g hg]
    simp [sumDia, hfil]
  · norm_num [gastos_tiempo, sumDia, fechaMin, fechaMax, List.range_succ]

/-- Witness for C5: the spec scenario instantiates the theorem. -/
theorem C5_daily_series_witness :
    gastos_tiempo
        [⟨1, "a", "x", "p", 10, 1⟩, ⟨2, "a", "x", "p", 20, 1⟩, ⟨3, "a", "x", "p", 5, 3⟩]
      = [(1, 30), (2, 0), (3, 5)] :=
  (C5_daily_series [⟨1, "a", "x", "p", 10, 1⟩] (by decide)).2.2.2.2.2.2

/-- Insert a category name into an ascending list of distinct names
(pandas `groupby` sorts its group keys and keeps them unique). -/
def insertCatAsc (c : String) : List String → List String
  | [] => [c]
  | h :: t =>
    if c = h then h :: t
    else if c < h then c :: h :: t
    else h :: insertCatAsc c t

/-- The distinct categories of the ledger in ascending order: the index of
`df.groupby('categoria')` (default `sort=True`). -/
def categoriasOrdenadas (db : List Gasto) : List String :=
  db.foldl (fun acc g => insertCatAsc g.categoria acc) []

/-- Sum of `monto_usd` over the records of category `c`. -/
def sumCategoria (db : List Gasto) (c : String) : ℚ :=
  ((db.filter (fun g => decide (g.categoria = c))).map Gasto.monto_usd).sum

/-- `df.groupby('categoria')['monto_usd'].sum()`: one (category, sum) pair
per distinct category, keys ascending. -/
def groupbyCategoria (db : List Gasto) : List (String × ℚ) :=
  (categoriasOrdenadas db).map (fun c => (c, sumCategoria db c))

/-- Stable insertion by descending sum: ties keep the earlier element
first, as `Series.nlargest` (default `keep='first'`) does over the
ascending-keyed groupby result; the trailing
`sort_values(ascending=False)` re-sort of an already descending series is
the identity. -/
def insertMontoDesc (x : String × ℚ) : List (String × ℚ) → List (String × ℚ)
  | [] => [x]
  | h :: t => if x.2 < h.2 then h :: insertMontoDesc x t else x :: h :: t

/-- Stable sort by descending sum. -/
def sortMontoDesc : List (String × ℚ) → List (String × ℚ)
  | [] => []
  | x :: t => insertMontoDesc x (sortMontoDesc t)

/-- `gastos_categoria`:
`df.groupby('categoria')['monto_usd'].sum().nlargest(top_n).sort_values(ascending=False)`
(the page calls it with `top_n = 10`). -/
def gastos_categoria (db : List Gasto) (top_n : Nat) : List (String × ℚ) :=
  (sortMontoDesc (groupbyCategoria db)).take top_n

theorem insertCatAsc_mem (c : String) (l : List String) (x : String) :
    x ∈ insertCatAsc c l ↔ x = c ∨ x ∈ l := by
  induction l with
  | nil => simp [insertCatAsc]
  | cons h t ih =>
    by_cases hc : c = h
    · subst hc
      have he : insertCatAsc c (c :: t) = c :: t := by simp [insertCatAsc]
      rw [he, List.mem_cons]
      tauto
    · by_cases hlt : c < h
      · have he : insertCatAsc c (h :: t) = c :: h :: t := by
          simp [insertCatAsc, hc, hlt]
        rw [he, List.mem_cons, List.mem_cons]
      · have he : insertCatAsc c (h :: t) = h :: insertCatAsc c t := by
          simp [insertCatAsc, hc, hlt]
        rw [he, List.mem_cons, ih, List.mem_cons]
        tauto

theorem insertCatAsc_pairwise (c : String) (l : List String)
    (hl : l.Pairwise (fun a b => a < b)) :
    (insertCatAsc c l).Pairwise (fun a b => a < b) := by
  induction l with
  | nil => simp [insertCatAsc]
  | cons h t ih =>
    rw [List.pairwise_cons] at hl
    by_cases hc : c = h
    · subst hc
      have he : insertCatAsc c (c :: t) = c :: t := by simp [insertCatAsc]
      rw [he]
      exact List.pairwise_cons.mpr hl
    · by_cases hlt : c < h
      · have he : insertCatAsc c (h :: t) = c :: h :: t := by
          simp [insertCatAsc, hc, hlt]
        rw [he, List.pairwise_cons]
        refine ⟨?_, List.pairwise_cons.mpr hl⟩
        intro x hx
        rcases List.mem_cons.mp hx with hx | hx
        · subst hx; exact hlt
        · exact lt_trans hlt (hl.1 x hx)
      · have hgt : h < c := lt_of_le_of_ne (not_lt.mp hlt) (fun he => hc he.symm)
        have he : insertCatAsc c (h :: t) = h :: insertCatAsc c t := by
          simp [insertCatAsc, hc, hlt]
        rw [he, List.pairwise_cons]
        refine ⟨?_, ih hl.2⟩
        intro x hx
        rcases (insertCatAsc_mem c t x).mp hx with hx | hx
        · subst hx; exact hgt
        · exact hl.1 x hx

theorem categoriasOrdenadas_aux (db : List Gasto) (acc : List String) :
    (acc.Pairwise (fun a b => a < b) →
      (db.foldl (fun a g => insertCatAsc g.categoria a) acc).Pairwise (fun a b => a < b)) ∧
    (∀ x, x ∈ db.foldl (fun a g => insertCatAsc g.categoria a) acc ↔
      (∃ g ∈ db, g.categoria = x) ∨ x ∈ acc) := by
  induction db generalizing acc with
  | nil => simp
  | cons g t ih =>
    constructor
    · intro hacc
      simp only [List.foldl_cons]
      exact (ih (insertCatAsc g.categoria acc)).1 (insertCatAsc_pairwise _ _ hacc)
    · intro x
      simp only [List.foldl_cons]
      rw [(ih (insertCatAsc g.categoria acc)).2 x, insertCatAsc_mem]
      simp only [List.mem_cons]
      constructor
      · rintro (⟨g', hg', he⟩ | he | hx)
        · exact Or.inl ⟨g', Or.inr hg', he⟩
        · exact Or.inl ⟨g, Or.inl rfl, he.symm⟩
        · exact Or.inr hx
      · rintro (⟨g', hg' | hg', he⟩ | hx)
        · subst hg'; exact Or.inr (Or.inl he.symm)
        · exact Or.inl ⟨g', hg', he⟩
        · exact Or.inr (Or.inr hx)

theorem categoriasOrdenadas_pairwise (db : List Gasto) :
    (categoriasOrdenadas db).Pairwise (fun a b => a < b) :=
  (categoriasOrdenadas_aux db []).1 List.Pairwise.nil

theorem categoriasOrdenadas_mem (db : List Gasto) (x : String) :
    x ∈ categoriasOrdenadas db ↔ ∃ g ∈ db, g.categoria = x := by
  have h := (categoriasOrdenadas_aux db []).2 x
  simpa [categoriasOrdenadas] using h

theorem groupbyCategoria_pairwise (db : List Gasto) :
    (groupbyCategoria db).Pairwise (fun a b => a.1 < b.1) :=
  List.Pairwise.map _ (fun {_ _} h => h) (categoriasOrdenadas_pairwise db)

theorem insertMontoDesc_perm (x : String × ℚ) (l : List (String × ℚ)) :
    (insertMontoDesc x l).Perm (x :: l) := by
  induction l with
  | nil => simp [insertMontoDesc]
  | cons h t ih =>
    by_cases hlt : x.2 < h.2
    · simp only [insertMontoDesc, if_pos hlt]
      exact (ih.cons h).trans (List.Perm.swap x h t)
    · simp [insertMontoDesc, hlt]

theorem sortMontoDesc_perm (l : List (String × ℚ)) : (sortMontoDesc l).Perm l := by
  induction l with
  | nil => simp [sortMontoDesc]
  | cons x t ih => exact (insertMontoDesc_perm x (sortMontoDesc t)).trans (ih.cons x)

theorem insertMontoDesc_pairwise (x : String × ℚ) (l : List (String × ℚ))
    (hl : l.Pairwise (fun a b => b.2 ≤ a.2 ∧ (a.2 = b.2 → a.1 < b.1)))
    (hx : ∀ y ∈ l, x.2 = y.2 → x.1 < y.1) :
    (insertMontoDesc x l).Pairwise (fun a b => b.2 ≤ a.2 ∧ (a.2 = b.2 → a.1 < b.1)) := by
  induction l with
  | nil => simp [insertMontoDesc]
  | cons h t ih =>
    rw [List.pairwise_cons] at hl
    by_cases hlt : x.2 < h.2
    · simp only [insertMontoDesc, if_pos hlt]
      rw [List.pairwise_cons]
      refine ⟨?_, ih hl.2 (fun y hy => hx y (List.mem_cons_of_mem h hy))⟩
      intro y hy
      rcases List.mem_cons.mp ((insertMontoDesc_perm x t).mem_iff.mp hy) with hy | hy
      · subst hy
        exact ⟨le_of_lt hlt, fun he => absurd hlt (not_lt.mpr (le_of_eq he))⟩
      · exact hl.1 y hy
    · simp only [insertMontoDesc, if_neg hlt]
      rw [List.pairwise_cons]
      constructor
      · intro y hy
        rcases List.mem_cons.mp hy with hy | hy
        · subst hy
          exact ⟨not_lt.mp hlt, fun he => hx y (List.mem_cons_self y t) he⟩
        · exact ⟨le_trans (hl.1 y hy).1 (not_lt.mp hlt),
                 fun he => hx y (List.mem_cons_of_mem h hy) he⟩
      · exact List.pairwise_cons.mpr hl

theorem sortMontoDesc_pairwise (l : List (String × ℚ))
    (hl : l.Pairwise (fun a b => a.1 < b.1)) :
    (sortMontoDesc l).Pairwise (fun a b => b.2 ≤ a.2 ∧ (a.2 = b.2 → a.1 < b.1)) := by
  induction l with
  | nil => simp [sortMontoDesc]
  | cons x t ih =>
    rw [List.pairwise_cons] at hl
    exact insertMontoDesc_pairwise x (sortMontoDesc t) (ih hl.2)
      (fun y hy _ => hl.1 y ((sortMontoDesc_perm t).mem_iff.mp hy))

/-- C6 counterexample: with categories first encountered in the order
`"b"`, `"a"` and equal sums, `top_n = 1` keeps `"a"` — the groupby sorts
its keys, so ties fall to the lexicographically smaller category, not to
the first-encountered one (`"b"`). -/
theorem C6_counterexample :
    gastos_categoria [⟨1, "b", "x", "p", 5, 0⟩, ⟨2, "a", "y", "p", 5, 0⟩] 1
        = [("a", 5)] ∧
    (("a", (5 : ℚ)) : String × ℚ) ≠ ("b", 5) := by
  have hab : ¬(("a" : String) = "b") := by decide
  have hba : ¬(("b" : String) = "a") := by decide
  have hlt : ("a" : String) < "b" := by
    rw [String.lt_iff_toList_lt]
    decide
  have hcats : categoriasOrdenadas
      [⟨1, "b", "x", "p", 5, 0⟩, ⟨2, "a", "y", "p", 5, 0⟩] = ["a", "b"] := by
    simp [categoriasOrdenadas, insertCatAsc, hab, hlt]
  have hsa : sumCategoria [⟨1, "b", "x", "p", 5, 0⟩, ⟨2, "a", "y", "p", 5, 0⟩] "a"
      = 5 := by
    norm_num [sumCategoria, List.filter_cons, hba]
  have hsb : sumCategoria [⟨1, "b", "x", "p", 5, 0⟩, ⟨2, "a", "y", "p", 5, 0⟩] "b"
      = 5 := by
    norm_num [sumCategoria, List.filter_cons, hab]
  constructor
  · rw [gastos_categoria, groupbyCategoria, hcats]
    simp only [List.map_cons, List.map_nil, hsa, hsb]
    norm_num [sortMontoDesc, insertMontoDesc]
  · intro he
    exact absurd (congrArg Prod.fst he) (by decide)

/-- C6 (amended): `gastos_categoria db top_n` groups by exact category
string (its categories are exactly those occurring in `db`, each paired
with the sum of `monto_usd` over its records), is sorted descending by
sum with ties ordered by ascending category name (the groupby sorts its
keys; first-encountered order is not used), has `min top_n #categories`
entries, and every truncated-away category's sum is at most every
retained sum. -/
theorem C6_by_category_amended (db : List Gasto) (n : Nat) :
    (∀ c : String, c ∈ categoriasOrdenadas db ↔ ∃ g ∈ db, g.categoria = c) ∧
    (∀ p ∈ gastos_categoria db n, p.2 = sumCategoria db p.1 ∧ p.1 ∈ categoriasOrdenadas db) ∧
    (gastos_categoria db n).Pairwise (fun a b => b.2 ≤ a.2 ∧ (a.2 = b.2 → a.1 < b.1)) ∧
    (gastos_categoria db n).length = min n (categoriasOrdenadas db).length ∧
    (∀ c ∈ categoriasOrdenadas db, c ∉ (gastos_categoria db n).map Prod.fst →
      ∀ p ∈ gastos_categoria db n, sumCategoria db c ≤ p.2) := by
  have hperm := sortMontoDesc_perm (groupbyCategoria db)
  have hpair := sortMontoDesc_pairwise (groupbyCategoria db) (groupbyCategoria_pairwise db)
  refine ⟨fun c => categoriasOrdenadas_mem db c, ?_, ?_, ?_, ?_⟩
  · intro p hp
    have hps : p ∈ sortMontoDesc (groupbyCategoria db) := List.mem_of_mem_take hp
    have hpg : p ∈ groupbyCategoria db := hperm.mem_iff.mp hps
    rcases List.mem_map.mp hpg with ⟨c, hc, rfl⟩
    exact ⟨rfl, hc⟩
  · exact hpair.sublist (List.take_sublist n _)
  · show (List.take n (sortMontoDesc (groupbyCategoria db))).length
        = min n (categoriasOrdenadas db).length
    rw [List.length_take, hperm.length_eq]
    simp [groupbyCategoria]
  · intro c hc hnot p hp
    have hcs : (c, sumCategoria db c) ∈ sortMontoDesc (groupbyCategoria db) :=
      hperm.mem_iff.mpr (List.mem_map.mpr ⟨c, hc, rfl⟩)
    have hsplit := List.take_append_drop n (sortMontoDesc (groupbyCategoria db))
    have hpa : ∀ a ∈ List.take n (sortMontoDesc (groupbyCategoria db)),
        ∀ b ∈ List.drop n (sortMontoDesc (groupbyCategoria db)),
          b.2 ≤ a.2 ∧ (a.2 = b.2 → a.1 < b.1) := by
      have hp2 := hpair
      rw [← hsplit] at hp2
      exact (List.pairwise_append.mp hp2).2.2
    rcases List.mem_append.mp (hsplit.symm ▸ hcs) with hmem | hmem
    · exact absurd (List.mem_map.mpr ⟨(c, sumCategoria db c), hmem, rfl⟩) hnot
    · exact (hpa p hp (c, sumCategoria db c) hmem).1

/-- The columns of a freshly created `gastos` table. -/
def columnasNuevas : List String :=
  ["id", "categoria", "concepto", "banco", "monto_usd", "fecha"]

/-- The persisted store's logical schema: whether the `gastos` table
exists and its column names. -/
structure Schema where
  existeTabla : Bool
  columnas : List String
deriving DecidableEq

/-- `CREATE TABLE IF NOT EXISTS gastos (...)`. -/
def createTableIfNotExists (s : Schema) : Schema :=
  if s.existeTabla then s else ⟨true, columnasNuevas⟩

/-- `ALTER TABLE gastos RENAME COLUMN monto TO monto_usd`, with the
`sqlite3.OperationalError` (no column `monto`, or `monto_usd` already
present) caught by the inner `except` and ignored. -/
def renameMonto (s : Schema) : Schema :=
  if "monto" ∈ s.columnas ∧ "monto_usd" ∉ s.columnas then
    { s with columnas :=
        s.columnas.map (fun c => if c = "monto" then "monto_usd" else c) }
  else s

/-- `ALTER TABLE gastos ADD COLUMN categoria TEXT NOT NULL DEFAULT ...`,
with the duplicate-column `OperationalError` caught and ignored. -/
def addCategoria (s : Schema) : Schema :=
  if "categoria" ∈ s.columnas then s
  else { s with columnas := s.columnas ++ ["categoria"] }

/-- `init_db`: create-if-absent, then the two swallowed migrations.  A
`sqlite3.Error` outside those expected no-ops (e.g. the database file is
unavailable) is caught by the outer handler and reported via `st.error`;
`fallaConexion` injects it, leaving the store untouched.  The `Bool` is
`true` when that error path ran. -/
def init_db (fallaConexion : Bool) (s : Schema) : Schema × Bool :=
  if fallaConexion then (s, true)
  else (addCategoria (renameMonto (createTableIfNotExists s)), false)

theorem renameMonto_existe (s : Schema) :
    (renameMonto s).existeTabla = s.existeTabla := by
  unfold renameMonto
  split <;> rfl

theorem addCategoria_existe (s : Schema) :
    (addCategoria s).existeTabla = s.existeTabla := by
  unfold addCategoria
  split <;> rfl

theorem createTable_existe (s : Schema) :
    (createTableIfNotExists s).existeTabla = true := by
  unfold createTableIfNotExists
  split
  · next h => exact h
  · rfl

theorem createTable_of_existe (s : Schema) (h : s.existeTabla = true) :
    createTableIfNotExists s = s := by
  simp [createTableIfNotExists, h]

theorem monto_notin_map (cols : List String) :
    "monto" ∉ cols.map (fun c => if c = "monto" then "monto_usd" else c) := by
  intro hm
  rcases List.mem_map.mp hm with ⟨c, _, hc⟩
  by_cases h : c = "monto"
  · rw [if_pos h] at hc
    exact absurd hc (by decide)
  · rw [if_neg h] at hc
    exact h hc

theorem renameMonto_noop (s : Schema)
    (h : ¬("monto" ∈ s.columnas ∧ "monto_usd" ∉ s.columnas)) :
    renameMonto s = s := by
  simp only [renameMonto, if_neg h]

theorem renameMonto_idem (s : Schema) :
    renameMonto (renameMonto s) = renameMonto s := by
  by_cases h : "monto" ∈ s.columnas ∧ "monto_usd" ∉ s.columnas
  · have hr : renameMonto s = { s with columnas := s.columnas.map (fun c => if c = "monto" then "monto_usd" else c) } := by
      simp only [renameMonto, if_pos h]
    rw [hr]
    apply renameMonto_noop
    intro hcon
    exact monto_notin_map s.columnas hcon.1
  · rw [renameMonto_noop s h, renameMonto_noop s h]

theorem addCategoria_mem (s : Schema) : "categoria" ∈ (addCategoria s).columnas := by
  unfold addCategoria
  by_cases h : "categoria" ∈ s.columnas
  · rw [if_pos h]
    exact h
  · rw [if_neg h]
    simp

theorem addCategoria_noop (s : Schema) (h : "categoria" ∈ s.columnas) :
    addCategoria s = s := by
  simp only [addCategoria, if_pos h]

theorem addCategoria_idem (s : Schema) :
    addCategoria (addCategoria s) = addCategoria s :=
  addCategoria_noop _ (addCategoria_mem s)

theorem addCategoria_mono (s : Schema) (x : String) (hx : x ≠ "categoria") :
    x ∈ (addCategoria s).columnas ↔ x ∈ s.columnas := by
  unfold addCategoria
  by_cases h : "categoria" ∈ s.columnas
  · rw [if_pos h]
  · rw [if_neg h]
    simp [List.mem_append, hx]

theorem renameMonto_cond_after (s : Schema) :
    ¬("monto" ∈ (addCategoria (renameMonto s)).columnas ∧
      "monto_usd" ∉ (addCategoria (renameMonto s)).columnas) := by
  intro hcon
  have hm := (addCategoria_mono (renameMonto s) "monto" (by decide)).mp hcon.1
  have hmu : "monto_usd" ∉ (renameMonto s).columnas := fun hx =>
    hcon.2 ((addCategoria_mono (renameMonto s) "monto_usd" (by decide)).mpr hx)
  by_cases h : "monto" ∈ s.columnas ∧ "monto_usd" ∉ s.columnas
  · have hr : (renameMonto s).columnas
        = s.columnas.map (fun c => if c = "monto" then "monto_usd" else c) := by
      simp only [renameMonto, if_pos h]
    rw [hr] at hm
    exact monto_notin_map s.columnas hm
  · rw [renameMonto_noop s h] at hm hmu
    exact h ⟨hm, hmu⟩

/-- C7: schema initialization is idempotent.  A successful `init_db` run
(in the model the two legacy migrations are always swallowed as expected
no-ops, so only an environmental failure aborts a run) followed by a
second run leaves the schema — table and columns — exactly as the first
run left it, and the second run reports no error; re-running either
migration alone is likewise a no-op. -/
theorem C7_schema_init_idempotent (s : Schema) :
    init_db false (init_db false s).1 = ((init_db false s).1, false) ∧
    renameMonto (renameMonto s) = renameMonto s ∧
    addCategoria (addCategoria s) = addCategoria s := by
  refine ⟨?_, renameMonto_idem s, addCategoria_idem s⟩
  have hfst : (init_db false s).1
      = addCategoria (renameMonto (createTableIfNotExists s)) := by
    simp [init_db]
  rw [hfst]
  have h1 : createTableIfNotExists (addCategoria (renameMonto (createTableIfNotExists s)))
      = addCategoria (renameMonto (createTableIfNotExists s)) :=
    createTable_of_existe _
      (by rw [addCategoria_existe, renameMonto_existe, createTable_existe])
  have h2 := renameMonto_noop _ (renameMonto_cond_after (createTableIfNotExists s))
  have h3 := addCategoria_idem (renameMonto (createTableIfNotExists s))
  simp [init_db, h1, h2, h3]

/-- The startup trace of the script body. -/
structure Startup where
  errorInit : Bool
  cargaEjecutada : Bool
  datos : List Gasto
  errorCarga : Bool
deriving DecidableEq

/-- The script's startup sequence: `init_db()` and then, with no guard on
the outcome, `df_gastos = cargar_datos()`. -/
def startup (fallaInit fallaCarga : Bool) (s : Schema) (db : List Gasto) : Startup :=
  { errorInit := (init_db fallaInit s).2
    cargaEjecutada := true
    datos := (cargar_datos fallaCarga db).1
    errorCarga := (cargar_datos fallaCarga db).2 }

/-- C8 counterexample: when schema initialization fails, the failure is
reported — and the startup sequence still performs the ledger read
(`cargar_datos` runs unconditionally on the next line), contrary to the
claim that no read proceeds against the malformed schema. -/
theorem C8_counterexample :
    (startup true false ⟨true, columnasNuevas⟩ []).errorInit = true ∧
    (startup true false ⟨true, columnasNuevas⟩ []).cargaEjecutada = true := by
  constructor
  · rfl
  · rfl

/-- C8 (amended): an initialization failure is reported to the UI, but
startup proceeds regardless: the ledger read always runs; the read has
its own handler and degrades to an empty frame with an error report on
its own failure, rather than halting the system. -/
theorem C8_startup_amended (fi fc : Bool) (s : Schema) (db : List Gasto) :
    (startup fi fc s db).errorInit = fi ∧
    (startup fi fc s db).cargaEjecutada = true ∧
    ((startup fi fc s db).datos, (startup fi fc s db).errorCarga)
      = cargar_datos fc db := by
  refine ⟨?_, rfl, rfl⟩
  cases fi
  · rfl
  · rfl

/-- C9 counterexample: a whitespace-only category passes the emptiness
check (Python's `not categoria_final` is false for `" "`), and
`.strip()` then makes the stored category the empty string — an input
violating the trim-level invariant is persisted rather than rejected. -/
theorem C9_counterexample :
    guardarHandler " " "x" "p" 1 Moneda.usd 0 3 7
      = some ⟨7, "", "x", "p", 1, 3⟩ := by
  have hcond : ¬((" " : String) = "" ∨ ("x" : String) = "" ∨ ("p" : String) = ""
      ∨ (1 : ℚ) ≤ 0) := by
    push_neg
    exact ⟨by decide, by decide, by decide, by norm_num⟩
  have hs : strip " " = "" := by decide
  simp only [guardarHandler, if_neg hcond,
    if_neg (by decide : ¬(Moneda.usd = Moneda.bolivares)), hs]

/-- C9 (amended): every record the save handler persists has a positive
`monto_usd`, and the raw text inputs were non-empty as entered (the
handler rejects exactly the untrimmed empty strings); the stored
`concepto` and `banco` are the inputs verbatim (possibly
whitespace-only), and the stored `categoria` is the stripped input
(possibly empty when the input was whitespace-only). -/
theorem C9_invariant_amended (c d b : String) (m r : ℚ) (mo : Moneda)
    (f k : Nat) (g : Gasto) (h : guardarHandler c d b m mo r f k = some g) :
    0 < g.monto_usd ∧ c ≠ "" ∧ d ≠ "" ∧ b ≠ "" ∧
    g.categoria = strip c ∧ g.concepto = d ∧ g.banco = b ∧
    g.id = k ∧ g.fecha = f := by
  simp only [guardarHandler] at h
  by_cases h1 : c = "" ∨ d = "" ∨ b = "" ∨ m ≤ 0
  · rw [if_pos h1] at h
    exact Option.noConfusion h
  · rw [if_neg h1] at h
    push_neg at h1
    obtain ⟨hc, hd, hb, hm⟩ := h1
    by_cases hmo : mo = Moneda.bolivares
    · rw [if_pos hmo] at h
      by_cases hr : r ≤ 0
      · rw [if_pos hr] at h
        exact Option.noConfusion h
      · rw [if_neg hr] at h
        push_neg at hr
        have hg := Option.some.inj h
        subst hg
        exact ⟨div_pos hm hr, hc, hd, hb, rfl, rfl, rfl, rfl, rfl⟩
    · rw [if_neg hmo] at h
      have hg := Option.some.inj h
      subst hg
      exact ⟨hm, hc, hd, hb, rfl, rfl, rfl, rfl, rfl⟩

/-- Witness for C9 (amended) at a concrete accepted input. -/
theorem C9_invariant_amended_witness :
    (0 : ℚ) < 2 ∧ ("Casa" : String) ≠ "" := by
  have hcond : ¬(("Casa" : String) = "" ∨ ("x" : String) = ""
      ∨ ("p" : String) = "" ∨ (2 : ℚ) ≤ 0) := by
    push_neg
    exact ⟨by decide, by decide, by decide, by norm_num⟩
  have happ : guardarHandler "Casa" "x" "p" 2 Moneda.usd 0 3 7
      = some ⟨7, strip "Casa", "x", "p", 2, 3⟩ := by
    simp only [guardarHandler, if_neg hcond,
      if_neg (by decide : ¬(Moneda.usd = Moneda.bolivares))]
  have h := C9_invariant_amended "Casa" "x" "p" 2 0 Moneda.usd 3 7
    ⟨7, strip "Casa", "x", "p", 2, 3⟩ happ
  exact ⟨h.1, h.2.1⟩

/-- C10: a storage failure in `cargar_datos` is reported to the UI and
the function returns the empty record sequence (with the standard column
set, here the `Gasto` record type itself) instead of raising — at the
data level indistinguishable from loading an empty ledger. -/
theorem C10_load_failure (db : List Gasto) :
    (cargar_datos true db).1 = [] ∧
    (cargar_datos true db).2 = true ∧
    (cargar_datos true db).1 = (cargar_datos false []).1 := by
  exact ⟨rfl, rfl, rfl⟩
